import Mathlib

/-!
Verification of the `vector_tree` repository (`drift_tree.h`).

The C++ header stores an ordered rooted tree in a `std::vector` of
`(drift, data)` pairs.  We embed the container as a `List` of nodes and
every mutating member function as a Lean function on that list; functions
whose C++ bodies `assert` a precondition return `Option` and yield `none`
exactly when an assertion (or an out-of-range iterator dereference) would
fire.  `drift_t = size_t` is modelled as `Nat`; every subtraction the code
performs is guarded by the corresponding assertion in the cases any claim
talks about, so truncated `Nat` subtraction coincides with the unsigned
arithmetic of the source there (the one place the source can accumulate an
intermediate negative value, the `insert_child_tree` drift loop, is
modelled with an `Int` fold and a final `Int.toNat`, mirroring the final
store into `size_t`).
-/

set_option maxRecDepth 4000

namespace vt

/-- Mirrors `vt::drift_node`: a drift value and a data payload. -/
structure drift_node (α : Type) where
  drift : Nat
  data : α
deriving DecidableEq

/-- Mirrors `drift_node::is_leaf`: `drift != 0`. -/
def drift_node.is_leaf {α : Type} (n : drift_node α) : Bool :=
  n.drift != 0

/-- Mirrors `drift_node::has_children`: `drift == 0`. -/
def drift_node.has_children {α : Type} (n : drift_node α) : Bool :=
  n.drift == 0

/-- Mirrors `vt::drift_tree`: the node vector, as a list. -/
abbrev drift_tree (α : Type) : Type :=
  List (drift_node α)

variable {α : Type}

/-- Mirrors `drift_tree::push_root`: `emplace(begin(), 0, value)` followed by
`back().drift += 1`.  The `none` branch of the match is unreachable because
the vector is non-empty after the emplace. -/
def push_root (t : drift_tree α) (value : α) : drift_tree α :=
  match (⟨0, value⟩ :: t : drift_tree α).getLast? with
  | some last => (⟨0, value⟩ :: t : drift_tree α).dropLast ++ [⟨last.drift + 1, last.data⟩]
  | none => []

/-- Mirrors `drift_tree::push_back_drifted`.  `none` corresponds to the
assertions `0 < size()` and `1 + back().drift > back_drift` firing. -/
def push_back_drifted (t : drift_tree α) (data : α) (back_drift : Nat) :
    Option (drift_tree α) :=
  match t.getLast? with
  | none => none
  | some last =>
    if back_drift < 1 + last.drift then
      some (t.dropLast ++ [⟨back_drift, last.data⟩, ⟨1 + last.drift - back_drift, data⟩])
    else none

/-- Mirrors `drift_tree::push_back_child`: `push_back_drifted(data, DRIFT_CHILD)`. -/
def push_back_child (t : drift_tree α) (data : α) : Option (drift_tree α) :=
  push_back_drifted t data 0

/-- Mirrors `drift_tree::push_back_sibling`: `push_back_drifted(data, DRIFT_SIBLING)`. -/
def push_back_sibling (t : drift_tree α) (data : α) : Option (drift_tree α) :=
  push_back_drifted t data 1

/-- Mirrors `drift_tree::push_back_level`.  `none` corresponds to the
assertions `0 < size()` and `back().drift > level` firing. -/
def push_back_level (t : drift_tree α) (data : α) (level : Nat) :
    Option (drift_tree α) :=
  match t.getLast? with
  | none => none
  | some last =>
    if level < last.drift then
      some (t.dropLast ++ [⟨last.drift - level, last.data⟩, ⟨1 + level, data⟩])
    else none

/-- Mirrors `drift_tree::pop_back`.  `none` corresponds to the assertion
`1 < size()` firing. -/
def pop_back (t : drift_tree α) : Option (drift_tree α) :=
  if 1 < t.length then
    match t.getLast?, t.dropLast.getLast? with
    | some last, some prev =>
      some (t.dropLast.dropLast ++ [⟨prev.drift + (last.drift - 1), prev.data⟩])
    | _, _ => none
  else none

/-- Mirrors `drift_tree::insert_first_child` at position `p`.  `none`
corresponds to the assertion `end() != i` firing. -/
def insert_first_child (t : drift_tree α) (p : Nat) (data : α) :
    Option (drift_tree α) :=
  match t[p]? with
  | none => none
  | some node =>
    some (t.take p ++ [⟨0, node.data⟩, ⟨1 + node.drift, data⟩] ++ t.drop (p + 1))

/-- Mirrors `drift_tree::insert_child_tree` at position `p` with input range
`ins`; returns the new node list together with the index the returned
iterator points at.  The drift accumulated by the source's
`while(--inserted) drift += 1 - (next++)->drift;` loop is computed by an
`Int` fold and stored through `Int.toNat`, matching the final store into
the unsigned `drift_t` field whenever the accumulated value is
non-negative. -/
def insert_child_tree (t : drift_tree α) (p : Nat) (ins : List (drift_node α)) :
    Option (drift_tree α × Nat) :=
  match t[p]? with
  | none => none
  | some node =>
    match ins.getLast? with
    | none => some (t, p + 1)
    | some ilast =>
      some (t.take p ++ [⟨0, node.data⟩] ++ ins.dropLast ++
              [⟨(ins.dropLast.foldl (fun acc nd => acc + 1 - (nd.drift : Int))
                  (1 + (node.drift : Int))).toNat, ilast.data⟩] ++
              t.drop (p + 1),
            p + ins.length)

/-- Mirrors `drift_tree::insert_sibling` at position `p`: emplaces `⟨1, data⟩`
just before `p`.  `none` corresponds to the assertion `i != end()` firing. -/
def insert_sibling (t : drift_tree α) (p : Nat) (data : α) :
    Option (drift_tree α) :=
  if p < t.length then some (t.take p ++ [⟨1, data⟩] ++ t.drop p) else none

/-- Mirrors `drift_tree::erase_leaf` at position `p`.  `none` corresponds to
the assertions `i != end()` and `i->is_leaf()` firing, or to the
dereference of the preceding node `(i-1)->drift` being out of range when
`p = 0` (an out-of-range position is a contract violation). -/
def erase_leaf (t : drift_tree α) (p : Nat) : Option (drift_tree α) :=
  match t[p]? with
  | none => none
  | some node =>
    if node.drift = 0 then none
    else if p = 0 then none
    else
      match t[p - 1]? with
      | none => none
      | some prev =>
        some (t.take (p - 1) ++ [⟨prev.drift + (node.drift - 1), prev.data⟩] ++ t.drop (p + 1))

/-- The state of `vt::subtree::iterator`: a cursor index into the node
vector and the `level_m` counter of still-open levels. -/
structure subtree_iterator where
  it_m : Nat
  level_m : Nat
deriving DecidableEq

/-- Mirrors `subtree::iterator::is_end`: `level_m == 0`. -/
def subtree_iterator.is_end (s : subtree_iterator) : Bool :=
  s.level_m == 0

/-- Mirrors `subtree::iterator::operator==`. -/
def iter_eq (a b : subtree_iterator) : Bool :=
  if a.is_end || b.is_end then a.level_m == b.level_m else a.it_m == b.it_m

/-- Mirrors the `subtree::iterator` constructor from a tree position `p`:
cursor `p + 1`, `level_m` is `1` when the anchor has children (drift `0`)
and `0` otherwise.  `none` corresponds to the dereference `it->drift` of an
out-of-range position. -/
def subtree_begin (t : drift_tree α) (p : Nat) : Option subtree_iterator :=
  match t[p]? with
  | none => none
  | some node => some ⟨p + 1, if node.drift = 0 then 1 else 0⟩

/-- Mirrors `subtree::iterator::operator++`: bump `level_m`, then either
close (still smaller than the cursor node's drift) or subtract that drift,
and advance the cursor either way.  `none` corresponds to the dereference
`it_m->drift` of an out-of-range cursor. -/
def subtree_step (t : drift_tree α) (s : subtree_iterator) : Option subtree_iterator :=
  match t[s.it_m]? with
  | none => none
  | some node =>
    if s.level_m + 1 < node.drift then some ⟨s.it_m + 1, 0⟩
    else some ⟨s.it_m + 1, s.level_m + 1 - node.drift⟩

/-- Mirrors the loop inside `drift_tree::erase_subtree`: advance the subtree
iterator until it is terminal, remembering the `level_m` of the last
non-terminal state; returns the final cursor together with that level.
`fuel` bounds the recursion; every caller passes enough fuel for a walk
that stays inside the vector. -/
def subtree_run (t : drift_tree α) : Nat → subtree_iterator → Nat → Option (Nat × Nat)
  | 0, _, _ => none
  | fuel + 1, s, last =>
    if s.level_m = 0 then some (s.it_m, last)
    else
      match subtree_step t s with
      | none => none
      | some s2 => subtree_run t fuel s2 s.level_m

/-- The sequence of nodes a `subtree::iterator` yields before reaching the
terminal state: the node under the cursor at each non-terminal state. -/
def subtree_list (t : drift_tree α) : Nat → subtree_iterator → Option (List (drift_node α))
  | 0, _ => none
  | fuel + 1, s =>
    if s.level_m = 0 then some []
    else
      match t[s.it_m]? with
      | none => none
      | some node =>
        match subtree_step t s with
        | none => none
        | some s2 => (subtree_list t fuel s2).map (node :: ·)

/-- The full enumeration of the subtree view anchored at position `p`:
what `std::distance(begin(st), end(st))` and the accumulations in the
tests iterate over. -/
def descendants (t : drift_tree α) (p : Nat) : Option (List (drift_node α)) :=
  match subtree_begin t p with
  | none => none
  | some s => subtree_list t (t.length + 1) s

/-- Mirrors `drift_tree::erase_subtree` for the view anchored at position
`p`: walk the subtree iterator to its terminal state, recompute the
anchor's drift from the node before the final cursor and the recorded
level, and erase the walked range. -/
def erase_subtree (t : drift_tree α) (p : Nat) : Option (drift_tree α) :=
  match t[p]? with
  | none => none
  | some node =>
    match subtree_run t (t.length + 1) ⟨p + 1, if node.drift = 0 then 1 else 0⟩
        (if node.drift = 0 then 1 else 0) with
    | none => none
    | some (e, lv) =>
      match t[e - 1]? with
      | none => none
      | some prior =>
        some (t.take p ++ [⟨prior.drift - lv, node.data⟩] ++ t.drop e)

/-- The drift components of a tree. -/
def drifts (t : drift_tree α) : List Nat :=
  t.map drift_node.drift

/-- Sum of all drift values. -/
def dsum (t : drift_tree α) : Nat :=
  (drifts t).sum

/-- The structural invariant we prove inductive for every reachable state:
the total drift sum equals the node count and no proper prefix's drift sum
exceeds its length.  The two conjuncts of the documented invariant (drift
sum equals count, last node is a leaf) follow from it. -/
def valid (t : drift_tree α) : Prop :=
  (∀ q < t.length, dsum (t.take q) ≤ q) ∧ dsum t = t.length

instance valid_decidable [DecidableEq α] (t : drift_tree α) : Decidable (valid t) := by
  unfold valid
  infer_instance

/-- The trees reachable from the empty tree through the public mutating
interface, each operation applied only when its preconditions hold (for
`insert_child_tree`, the supplied range must itself be a drift-encoded
subtree, i.e. empty or `valid`, as the specification's wording requires). -/
inductive Reachable : drift_tree α → Prop
  | empty : Reachable []
  | proot (t : drift_tree α) (v : α) : Reachable t → Reachable (push_root t v)
  | pbd (t : drift_tree α) (x : α) (bd : Nat) (t2 : drift_tree α) :
      Reachable t → push_back_drifted t x bd = some t2 → Reachable t2
  | pbc (t : drift_tree α) (x : α) (t2 : drift_tree α) :
      Reachable t → push_back_child t x = some t2 → Reachable t2
  | pbs (t : drift_tree α) (x : α) (t2 : drift_tree α) :
      Reachable t → push_back_sibling t x = some t2 → Reachable t2
  | pbl (t : drift_tree α) (x : α) (lv : Nat) (t2 : drift_tree α) :
      Reachable t → push_back_level t x lv = some t2 → Reachable t2
  | popb (t : drift_tree α) (t2 : drift_tree α) :
      Reachable t → pop_back t = some t2 → Reachable t2
  | ifc (t : drift_tree α) (p : Nat) (x : α) (t2 : drift_tree α) :
      Reachable t → insert_first_child t p x = some t2 → Reachable t2
  | ict (t : drift_tree α) (p : Nat) (ins : List (drift_node α)) (t2 : drift_tree α) (k : Nat) :
      Reachable t → (ins = [] ∨ valid ins) →
      insert_child_tree t p ins = some (t2, k) → Reachable t2
  | isib (t : drift_tree α) (p : Nat) (x : α) (t2 : drift_tree α) :
      Reachable t → insert_sibling t p x = some t2 → Reachable t2
  | eleaf (t : drift_tree α) (p : Nat) (t2 : drift_tree α) :
      Reachable t → erase_leaf t p = some t2 → Reachable t2
  | esub (t : drift_tree α) (p : Nat) (t2 : drift_tree α) :
      Reachable t → erase_subtree t p = some t2 → Reachable t2

/-- The build sequence of test scenario 1. -/
def scenario_build : Option (drift_tree Nat) :=
  (push_back_child (push_root ([] : drift_tree Nat) 1) 2).bind
    (fun t => push_back_child t 3) |>.bind
    (fun t => push_back_sibling t 4) |>.bind
    (fun t => push_back_level t 5 1) |>.bind
    (fun t => push_back_child t 6)

/-- The node sequence scenario 1 produces (the layout documented in the
header comment of `drift_tree.h`). -/
def scenario1 : drift_tree Nat :=
  [⟨0, 1⟩, ⟨0, 2⟩, ⟨1, 3⟩, ⟨2, 4⟩, ⟨0, 5⟩, ⟨3, 6⟩]

theorem dsum_nil : dsum ([] : drift_tree α) = 0 := rfl

theorem dsum_cons (n : drift_node α) (t : drift_tree α) :
    dsum (n :: t) = n.drift + dsum t := by
  simp [dsum, drifts]

theorem dsum_append (a b : drift_tree α) : dsum (a ++ b) = dsum a + dsum b := by
  simp [dsum, drifts]

theorem dsum_singleton (n : drift_node α) : dsum [n] = n.drift := by
  simp [dsum, drifts]

theorem eq_dropLast_concat {t : drift_tree α} {x : drift_node α}
    (h : t.getLast? = some x) : t = t.dropLast ++ [x] := by
  have hne : t ≠ [] := by
    intro he
    rw [he] at h
    exact Option.noConfusion h
  have h2 := List.getLast?_eq_getLast t hne
  rw [h2] at h
  have h3 : t.getLast hne = x := Option.some.inj h
  rw [← h3]
  exact (List.dropLast_append_getLast hne).symm

theorem length_of_getLast_some {t : drift_tree α} {x : drift_node α}
    (h : t.getLast? = some x) : t.dropLast.length + 1 = t.length := by
  have hne : t ≠ [] := by
    intro he
    rw [he] at h
    exact Option.noConfusion h
  have h1 : 0 < t.length := List.length_pos.mpr hne
  rw [List.length_dropLast]
  omega

theorem valid_nil : valid ([] : drift_tree α) := by
  constructor
  · intro q hq
    simp at hq
  · rfl

theorem dsum_take_le {t : drift_tree α} (hv : valid t) :
    ∀ q, dsum (t.take q) ≤ q := by
  intro q
  by_cases hq : q < t.length
  · exact hv.1 q hq
  · rw [List.take_of_length_le (by omega)]
    rw [hv.2]
    omega

theorem dsum_dropLast_add {t : drift_tree α} {x : drift_node α}
    (h : t.getLast? = some x) : dsum t.dropLast + x.drift = dsum t := by
  conv_rhs => rw [eq_dropLast_concat h]
  rw [dsum_append, dsum_singleton]

theorem dsum_dropLast_le {t : drift_tree α} (hv : valid t) :
    dsum t.dropLast ≤ t.length - 1 := by
  rw [List.dropLast_eq_take]
  exact le_trans (dsum_take_le hv (t.length - 1)) (le_refl _)

theorem valid_last_drift {t : drift_tree α} {x : drift_node α}
    (hv : valid t) (h : t.getLast? = some x) : 1 ≤ x.drift := by
  have h1 := dsum_dropLast_add h
  have h2 := dsum_dropLast_le hv
  have h3 := length_of_getLast_some h
  have h4 := hv.2
  omega

theorem splice_valid {t : drift_tree α} (M : drift_tree α) (p e : Nat)
    (hv : valid t) (hpe : p ≤ e) (hen : e ≤ t.length)
    (hmid : ∀ q ≤ M.length, dsum (t.take p) + dsum (M.take q) ≤ p + q)
    (hdelta : dsum (t.take p) + dsum M + e = dsum (t.take e) + p + M.length) :
    valid (t.take p ++ M ++ t.drop e) := by
  have hlenA : (t.take p).length = p := by
    simp [List.length_take]
    omega
  have hlenC : (t.drop e).length = t.length - e := by
    simp
  have hsplit : dsum (t.take e) + dsum (t.drop e) = dsum t := by
    rw [← dsum_append, List.take_append_drop]
  constructor
  · intro q hq
    have hform : dsum ((t.take p ++ M ++ t.drop e).take q) =
        dsum ((t.take p).take q) + (dsum (M.take (q - p)) +
          dsum ((t.drop e).take (q - p - M.length))) := by
      rw [List.append_assoc, List.take_append_eq_append_take,
        List.take_append_eq_append_take, dsum_append, dsum_append, hlenA]
    rw [hform]
    by_cases h1 : q ≤ p
    · have e1 : (t.take p).take q = t.take q := by
        rw [List.take_take]
        congr 1
        omega
      have e2 : M.take (q - p) = [] := by
        have hz : q - p = 0 := by omega
        rw [hz, List.take_zero]
      have e3 : (t.drop e).take (q - p - M.length) = [] := by
        have hz : q - p - M.length = 0 := by omega
        rw [hz, List.take_zero]
      rw [e1, e2, e3]
      simp only [dsum_nil]
      have := dsum_take_le hv q
      omega
    · have e1 : (t.take p).take q = t.take p := by
        rw [List.take_take]
        congr 1
        omega
      rw [e1]
      by_cases h2 : q ≤ p + M.length
      · have e3 : (t.drop e).take (q - p - M.length) = [] := by
          have hz : q - p - M.length = 0 := by omega
          rw [hz, List.take_zero]
        rw [e3, dsum_nil]
        have := hmid (q - p) (by omega)
        omega
      · have e2 : M.take (q - p) = M := List.take_of_length_le (by omega)
        rw [e2]
        have h3 : dsum (t.take e) + dsum ((t.drop e).take (q - p - M.length)) =
            dsum (t.take (e + (q - p - M.length))) := by
          rw [← dsum_append, ← List.take_add]
        have h4 := dsum_take_le hv (e + (q - p - M.length))
        omega
  · rw [List.append_assoc, dsum_append, dsum_append]
    have hlen : (t.take p ++ (M ++ t.drop e)).length = p + M.length + (t.length - e) := by
      simp only [List.length_append, hlenA, hlenC]
      omega
    rw [hlen]
    have := hv.2
    omega

theorem dsum_take_concat (X : drift_tree α) (y : drift_node α) (q : Nat) :
    dsum ((X ++ [y]).take q) =
      dsum (X.take q) + (if X.length < q then y.drift else 0) := by
  rw [List.take_append_eq_append_take, dsum_append]
  by_cases h : X.length < q
  · rw [if_pos h]
    have h1 : [y].take (q - X.length) = [y] := by
      apply List.take_of_length_le
      simp
      omega
    rw [h1, dsum_singleton]
  · rw [if_neg h]
    have hz : q - X.length = 0 := by omega
    rw [hz, List.take_zero, dsum_nil]

theorem take_dropLast_eq (t : drift_tree α) (q : Nat) (h : q ≤ t.length - 1) :
    t.dropLast.take q = t.take q := by
  rw [List.dropLast_eq_take, List.take_take]
  congr 1
  omega

theorem dsum_take_length (t : drift_tree α) : dsum (t.take t.length) = dsum t := by
  rw [List.take_length]

theorem push_back_drifted_valid {t t2 : drift_tree α} {x : α} {bd : Nat}
    (hv : valid t) (h : push_back_drifted t x bd = some t2) : valid t2 := by
  unfold push_back_drifted at h
  split at h
  · exact absurd h (by simp)
  · rename_i last hl
    split at h
    · rename_i hbd
      have hne : t ≠ [] := by
        intro he
        rw [he] at hl
        exact Option.noConfusion hl
      have hpos : 0 < t.length := List.length_pos.mpr hne
      have ht2 : t2 = t.dropLast ++ [⟨bd, last.data⟩, ⟨1 + last.drift - bd, x⟩] :=
        (Option.some.inj h).symm
      rw [ht2]
      have hS : t.dropLast ++ [(⟨bd, last.data⟩ : drift_node α), ⟨1 + last.drift - bd, x⟩] =
          t.take (t.length - 1) ++ [⟨bd, last.data⟩, ⟨1 + last.drift - bd, x⟩] ++
            t.drop t.length := by
        rw [List.dropLast_eq_take, List.drop_length, List.append_nil]
      rw [hS]
      have hA : dsum (t.take (t.length - 1)) = dsum t.dropLast := by
        rw [List.dropLast_eq_take]
      have h1 := dsum_dropLast_add hl
      have h2 := hv.2
      have h3 := dsum_dropLast_le hv
      apply splice_valid _ _ _ hv (by omega) (le_refl _)
      · intro q hq
        simp only [List.length_cons, List.length_nil] at hq
        interval_cases q
        · simp only [List.take_zero, dsum_nil]
          omega
        · have : ([(⟨bd, last.data⟩ : drift_node α), ⟨1 + last.drift - bd, x⟩].take 1) =
              [⟨bd, last.data⟩] := rfl
          rw [this, dsum_singleton]
          simp only []
          omega
        · have : ([(⟨bd, last.data⟩ : drift_node α), ⟨1 + last.drift - bd, x⟩].take 2) =
              [⟨bd, last.data⟩, ⟨1 + last.drift - bd, x⟩] := rfl
          rw [this]
          have hM : dsum [(⟨bd, last.data⟩ : drift_node α), ⟨1 + last.drift - bd, x⟩] =
              bd + (1 + last.drift - bd) := by
            simp [dsum, drifts]
          rw [hM]
          omega
      · have hM : dsum [(⟨bd, last.data⟩ : drift_node α), ⟨1 + last.drift - bd, x⟩] =
            bd + (1 + last.drift - bd) := by
          simp [dsum, drifts]
        rw [hM, dsum_take_length]
        simp only [List.length_cons, List.length_nil]
        omega
    · exact absurd h (by simp)

theorem push_back_level_valid {t t2 : drift_tree α} {x : α} {lv : Nat}
    (hv : valid t) (h : push_back_level t x lv = some t2) : valid t2 := by
  unfold push_back_level at h
  split at h
  · exact absurd h (by simp)
  · rename_i last hl
    split at h
    · rename_i hlv
      have hne : t ≠ [] := by
        intro he
        rw [he] at hl
        exact Option.noConfusion hl
      have hpos : 0 < t.length := List.length_pos.mpr hne
      have ht2 : t2 = t.dropLast ++ [⟨last.drift - lv, last.data⟩, ⟨1 + lv, x⟩] :=
        (Option.some.inj h).symm
      rw [ht2]
      have hS : t.dropLast ++ [(⟨last.drift - lv, last.data⟩ : drift_node α), ⟨1 + lv, x⟩] =
          t.take (t.length - 1) ++ [⟨last.drift - lv, last.data⟩, ⟨1 + lv, x⟩] ++
            t.drop t.length := by
        rw [List.dropLast_eq_take, List.drop_length, List.append_nil]
      rw [hS]
      have hA : dsum (t.take (t.length - 1)) = dsum t.dropLast := by
        rw [List.dropLast_eq_take]
      have h1 := dsum_dropLast_add hl
      have h2 := hv.2
      have h3 := dsum_dropLast_le hv
      apply splice_valid _ _ _ hv (by omega) (le_refl _)
      · intro q hq
        simp only [List.length_cons, List.length_nil] at hq
        interval_cases q
        · simp only [List.take_zero, dsum_nil]
          omega
        · have : ([(⟨last.drift - lv, last.data⟩ : drift_node α), ⟨1 + lv, x⟩].take 1) =
              [⟨last.drift - lv, last.data⟩] := rfl
          rw [this, dsum_singleton]
          simp only []
          omega
        · have : ([(⟨last.drift - lv, last.data⟩ : drift_node α), ⟨1 + lv, x⟩].take 2) =
              [⟨last.drift - lv, last.data⟩, ⟨1 + lv, x⟩] := rfl
          rw [this]
          have hM : dsum [(⟨last.drift - lv, last.data⟩ : drift_node α), ⟨1 + lv, x⟩] =
              (last.drift - lv) + (1 + lv) := by
            simp [dsum, drifts]
          rw [hM]
          omega
      · have hM : dsum [(⟨last.drift - lv, last.data⟩ : drift_node α), ⟨1 + lv, x⟩] =
            (last.drift - lv) + (1 + lv) := by
          simp [dsum, drifts]
        rw [hM, dsum_take_length]
        simp only [List.length_cons, List.length_nil]
        omega
    · exact absurd h (by simp)

theorem dropLast_dropLast_eq_take (t : drift_tree α) :
    t.dropLast.dropLast = t.take (t.length - 2) := by
  rw [List.dropLast_eq_take t, List.dropLast_eq_take, List.length_take, List.take_take]
  congr 1
  omega

theorem pop_back_valid {t t2 : drift_tree α}
    (hv : valid t) (h : pop_back t = some t2) : valid t2 := by
  unfold pop_back at h
  split at h
  · rename_i hlen
    split at h
    · rename_i last prev hl hprev
      have ht2 : t2 = t.dropLast.dropLast ++ [⟨prev.drift + (last.drift - 1), prev.data⟩] :=
        (Option.some.inj h).symm
      rw [ht2]
      have h1 := dsum_dropLast_add hl
      have h2 := dsum_dropLast_add hprev
      have h3 := hv.2
      have h4 := valid_last_drift hv hl
      have h5 := length_of_getLast_some hl
      have h6 := length_of_getLast_some hprev
      have hA : dsum (t.take (t.length - 2)) = dsum t.dropLast.dropLast := by
        rw [dropLast_dropLast_eq_take]
      have hS : t.dropLast.dropLast ++ [(⟨prev.drift + (last.drift - 1), prev.data⟩ : drift_node α)] =
          t.take (t.length - 2) ++ [⟨prev.drift + (last.drift - 1), prev.data⟩] ++
            t.drop t.length := by
        rw [dropLast_dropLast_eq_take, List.drop_length, List.append_nil]
      rw [hS]
      apply splice_valid _ _ _ hv (by omega) (le_refl _)
      · intro q hq
        simp only [List.length_cons, List.length_nil] at hq
        interval_cases q
        · simp only [List.take_zero, dsum_nil]
          have := dsum_take_le hv (t.length - 2)
          omega
        · have he : ([(⟨prev.drift + (last.drift - 1), prev.data⟩ : drift_node α)].take 1) =
              [⟨prev.drift + (last.drift - 1), prev.data⟩] := rfl
          rw [he, dsum_singleton]
          simp only []
          omega
      · rw [dsum_singleton, dsum_take_length]
        simp only [List.length_cons, List.length_nil]
        omega
    · exact absurd h (by simp)
  · exact absurd h (by simp)

theorem push_root_eq {t : drift_tree α} {last : drift_node α}
    (hl : t.getLast? = some last) (v : α) :
    push_root t v = (⟨0, v⟩ :: t.dropLast) ++ [⟨last.drift + 1, last.data⟩] := by
  unfold push_root
  cases t with
  | nil => exact absurd hl (by simp)
  | cons hd tl =>
    simp only [List.getLast?_cons_cons, hl]
    rfl

theorem push_root_valid {t : drift_tree α} (hv : valid t) (v : α) :
    valid (push_root t v) := by
  cases hl : t.getLast? with
  | none =>
    have hnil : t = [] := by
      cases t with
      | nil => rfl
      | cons hd tl =>
        have := List.getLast?_eq_getLast (hd :: tl) (by simp)
        rw [this] at hl
        exact Option.noConfusion hl
    subst hnil
    have he : push_root ([] : drift_tree α) v = [⟨1, v⟩] := rfl
    rw [he]
    constructor
    · intro q hq
      simp only [List.length_cons, List.length_nil] at hq
      interval_cases q
      simp [dsum_nil]
    · simp [dsum, drifts]
  | some last =>
    have hne : t ≠ [] := by
      intro he
      rw [he] at hl
      exact Option.noConfusion hl
    have hpos : 0 < t.length := List.length_pos.mpr hne
    have h1 := dsum_dropLast_add hl
    have h2 := hv.2
    have h5 := length_of_getLast_some hl
    rw [push_root_eq hl v]
    have hS : (⟨0, v⟩ :: t.dropLast) ++ [(⟨last.drift + 1, last.data⟩ : drift_node α)] =
        t.take 0 ++ ((⟨0, v⟩ :: t.dropLast) ++ [⟨last.drift + 1, last.data⟩]) ++
          t.drop t.length := by
      rw [List.take_zero, List.drop_length, List.nil_append, List.append_nil]
    rw [hS]
    apply splice_valid _ 0 t.length hv (by omega) (le_refl _)
    · intro q hq
      simp only [List.length_append, List.length_cons, List.length_nil,
        List.length_dropLast] at hq
      rw [List.take_zero, dsum_nil, Nat.zero_add, Nat.zero_add]
      cases q with
      | zero =>
        simp [dsum_nil]
      | succ q2 =>
        rw [List.cons_append, List.take_succ_cons, dsum_cons, dsum_take_concat]
        simp only [List.length_dropLast]
        by_cases hq2 : q2 ≤ t.length - 1
        · rw [if_neg (by omega)]
          have he : t.dropLast.take q2 = t.take q2 := take_dropLast_eq t q2 hq2
          rw [he]
          have := dsum_take_le hv q2
          omega
        · rw [if_pos (by omega)]
          have he : t.dropLast.take q2 = t.dropLast := by
            apply List.take_of_length_le
            rw [List.length_dropLast]
            omega
          rw [he]
          omega
    · rw [List.take_zero, dsum_nil, dsum_append, dsum_cons, dsum_singleton, dsum_take_length]
      simp only [List.length_append, List.length_cons, List.length_nil, List.length_dropLast]
      omega

theorem take_succ_of_getElem {t : drift_tree α} {p : Nat} {node : drift_node α}
    (h : t[p]? = some node) : t.take (p + 1) = t.take p ++ [node] := by
  rw [List.take_succ, h]
  rfl

theorem dsum_take_succ {t : drift_tree α} {p : Nat} {node : drift_node α}
    (h : t[p]? = some node) :
    dsum (t.take (p + 1)) = dsum (t.take p) + node.drift := by
  rw [take_succ_of_getElem h, dsum_append, dsum_singleton]

theorem getElem_some_lt {t : drift_tree α} {p : Nat} {node : drift_node α}
    (h : t[p]? = some node) : p < t.length := by
  rcases List.getElem?_eq_some.mp h with ⟨hp, _⟩
  exact hp

theorem insert_first_child_valid {t t2 : drift_tree α} {p : Nat} {x : α}
    (hv : valid t) (h : insert_first_child t p x = some t2) : valid t2 := by
  unfold insert_first_child at h
  split at h
  · exact absurd h (by simp)
  · rename_i node hnode
    have ht2 : t2 = t.take p ++ [⟨0, node.data⟩, ⟨1 + node.drift, x⟩] ++ t.drop (p + 1) :=
      (Option.some.inj h).symm
    rw [ht2]
    have hp := getElem_some_lt hnode
    have hs := dsum_take_succ hnode
    have hpre := dsum_take_le hv p
    have hpre1 := dsum_take_le hv (p + 1)
    apply splice_valid _ _ _ hv (by omega) (by omega)
    · intro q hq
      simp only [List.length_cons, List.length_nil] at hq
      interval_cases q
      · simp only [List.take_zero, dsum_nil]
        omega
      · have he : ([(⟨0, node.data⟩ : drift_node α), ⟨1 + node.drift, x⟩].take 1) =
            [⟨0, node.data⟩] := rfl
        rw [he, dsum_singleton]
        simp only []
        omega
      · have he : ([(⟨0, node.data⟩ : drift_node α), ⟨1 + node.drift, x⟩].take 2) =
            [⟨0, node.data⟩, ⟨1 + node.drift, x⟩] := rfl
        rw [he]
        have hM : dsum [(⟨0, node.data⟩ : drift_node α), ⟨1 + node.drift, x⟩] =
            1 + node.drift := by
          simp [dsum, drifts]
        rw [hM]
        omega
    · have hM : dsum [(⟨0, node.data⟩ : drift_node α), ⟨1 + node.drift, x⟩] =
          1 + node.drift := by
        simp [dsum, drifts]
      rw [hM]
      simp only [List.length_cons, List.length_nil]
      omega

theorem insert_sibling_valid {t t2 : drift_tree α} {p : Nat} {x : α}
    (hv : valid t) (h : insert_sibling t p x = some t2) : valid t2 := by
  unfold insert_sibling at h
  split at h
  · rename_i hp
    have ht2 : t2 = t.take p ++ [⟨1, x⟩] ++ t.drop p :=
      (Option.some.inj h).symm
    rw [ht2]
    have hpre := dsum_take_le hv p
    apply splice_valid _ _ _ hv (le_refl p) (by omega)
    · intro q hq
      simp only [List.length_cons, List.length_nil] at hq
      interval_cases q
      · simp only [List.take_zero, dsum_nil]
        omega
      · have he : ([(⟨1, x⟩ : drift_node α)].take 1) = [⟨1, x⟩] := rfl
        rw [he, dsum_singleton]
        simp only []
        omega
    · rw [dsum_singleton]
      simp only [List.length_cons, List.length_nil]
      omega
  · exact absurd h (by simp)

theorem erase_leaf_valid {t t2 : drift_tree α} {p : Nat}
    (hv : valid t) (h : erase_leaf t p = some t2) : valid t2 := by
  unfold erase_leaf at h
  split at h
  · exact absurd h (by simp)
  · rename_i node hnode
    split at h
    · exact absurd h (by simp)
    · rename_i hdrift
      split at h
      · exact absurd h (by simp)
      · rename_i hp0
        split at h
        · exact absurd h (by simp)
        · rename_i prev hprev
          have ht2 : t2 = t.take (p - 1) ++ [⟨prev.drift + (node.drift - 1), prev.data⟩] ++
              t.drop (p + 1) := (Option.some.inj h).symm
          rw [ht2]
          have hp := getElem_some_lt hnode
          have hs := dsum_take_succ hnode
          have hsp : dsum (t.take p) = dsum (t.take (p - 1)) + prev.drift := by
            have he : p - 1 + 1 = p := by omega
            have := dsum_take_succ hprev
            rw [he] at this
            exact this
          have hpre1 := dsum_take_le hv (p + 1)
          apply splice_valid _ _ _ hv (by omega) (by omega)
          · intro q hq
            simp only [List.length_cons, List.length_nil] at hq
            interval_cases q
            · simp only [List.take_zero, dsum_nil]
              have := dsum_take_le hv (p - 1)
              omega
            · have he : ([(⟨prev.drift + (node.drift - 1), prev.data⟩ : drift_node α)].take 1) =
                  [⟨prev.drift + (node.drift - 1), prev.data⟩] := rfl
              rw [he, dsum_singleton]
              simp only []
              omega
          · rw [dsum_singleton]
            simp only [List.length_cons, List.length_nil]
            omega

theorem foldl_drift_int (l : drift_tree α) (init : Int) :
    l.foldl (fun acc nd => acc + 1 - (nd.drift : Int)) init =
      init + l.length - (dsum l : Int) := by
  induction l generalizing init with
  | nil =>
    simp [dsum_nil]
  | cons hd tl ih =>
    rw [List.foldl_cons, ih, dsum_cons, List.length_cons]
    push_cast
    ring

theorem insert_child_tree_valid {t t2 : drift_tree α} {p k : Nat}
    {ins : List (drift_node α)} (hv : valid t) (hins : ins = [] ∨ valid ins)
    (h : insert_child_tree t p ins = some (t2, k)) : valid t2 := by
  unfold insert_child_tree at h
  split at h
  · exact absurd h (by simp)
  · rename_i node hnode
    split at h
    · simp only [Option.some.injEq, Prod.mk.injEq] at h
      rw [← h.1]
      exact hv
    · rename_i ilast hilast
      have hine : ins ≠ [] := by
        intro he
        rw [he] at hilast
        exact Option.noConfusion hilast
      have hvins : valid ins := by
        cases hins with
        | inl h0 => exact absurd h0 hine
        | inr h0 => exact h0
      have hm : 1 ≤ ins.length := List.length_pos.mpr hine
      have hdl := dsum_dropLast_add hilast
      have hlend := length_of_getLast_some hilast
      have htot := hvins.2
      have hb : (⟨node.drift + ilast.drift, ilast.data⟩ : drift_node α).drift =
          node.drift + ilast.drift := rfl
      have hz : (⟨0, node.data⟩ : drift_node α).drift = 0 := rfl
      have hp := getElem_some_lt hnode
      have hs := dsum_take_succ hnode
      have hpre1 := dsum_take_le hv (p + 1)
      have hFnat : (ins.dropLast.foldl (fun acc nd => acc + 1 - (nd.drift : Int))
          (1 + (node.drift : Int))).toNat = node.drift + ilast.drift := by
        rw [foldl_drift_int]
        omega
      rw [hFnat] at h
      have ht2 : t2 = t.take p ++ [⟨0, node.data⟩] ++ ins.dropLast ++
          [⟨node.drift + ilast.drift, ilast.data⟩] ++ t.drop (p + 1) := by
        have := Option.some.inj h
        exact (congrArg Prod.fst this).symm
      rw [ht2]
      have hS : t.take p ++ [(⟨0, node.data⟩ : drift_node α)] ++ ins.dropLast ++
          [(⟨node.drift + ilast.drift, ilast.data⟩ : drift_node α)] ++ t.drop (p + 1) =
          t.take p ++ ([⟨0, node.data⟩] ++ ins.dropLast ++
            [⟨node.drift + ilast.drift, ilast.data⟩]) ++ t.drop (p + 1) := by
        simp only [List.append_assoc]
      rw [hS]
      have hMlen : ([(⟨0, node.data⟩ : drift_node α)] ++ ins.dropLast ++
          [(⟨node.drift + ilast.drift, ilast.data⟩ : drift_node α)]).length =
          ins.length + 1 := by
        simp only [List.length_append, List.length_cons, List.length_nil,
          List.length_dropLast]
        omega
      apply splice_valid _ _ _ hv (by omega) (by omega)
      · intro q hq
        rw [hMlen] at hq
        cases q with
        | zero =>
          simp only [List.take_zero, dsum_nil]
          have := dsum_take_le hv p
          omega
        | succ q2 =>
          have hc : [(⟨0, node.data⟩ : drift_node α)] ++ ins.dropLast ++
              [(⟨node.drift + ilast.drift, ilast.data⟩ : drift_node α)] =
              (⟨0, node.data⟩ : drift_node α) :: (ins.dropLast ++
                [⟨node.drift + ilast.drift, ilast.data⟩]) := by
            simp only [List.append_assoc, List.cons_append, List.nil_append]
          rw [hc, List.take_succ_cons, dsum_cons, dsum_take_concat]
          simp only [List.length_dropLast]
          by_cases hq2 : q2 ≤ ins.length - 1
          · rw [if_neg (by omega)]
            have he : ins.dropLast.take q2 = ins.take q2 := take_dropLast_eq ins q2 hq2
            rw [he]
            have := dsum_take_le hvins q2
            omega
          · rw [if_pos (by omega)]
            have he : ins.dropLast.take q2 = ins.dropLast := by
              apply List.take_of_length_le
              rw [List.length_dropLast]
              omega
            rw [he]
            omega
      · rw [hMlen]
        have hdM : dsum ([(⟨0, node.data⟩ : drift_node α)] ++ ins.dropLast ++
            [(⟨node.drift + ilast.drift, ilast.data⟩ : drift_node α)]) =
            dsum ins.dropLast + (node.drift + ilast.drift) := by
          rw [dsum_append, dsum_append, dsum_singleton, dsum_singleton]
          omega
        rw [hdM]
        omega

theorem dsum_seg_succ {t : drift_tree α} {p c : Nat} {node : drift_node α}
    (hpc : p ≤ c) (h : t[c]? = some node) :
    dsum ((t.drop p).take (c + 1 - p)) = dsum ((t.drop p).take (c - p)) + node.drift := by
  have h1 : c + 1 - p = (c - p) + 1 := by omega
  rw [h1, List.take_succ]
  have h2 : (t.drop p)[c - p]? = some node := by
    rw [List.getElem?_drop]
    rw [show p + (c - p) = c from by omega]
    exact h
  rw [h2]
  have h3 : (some node).toList = [node] := rfl
  rw [h3, dsum_append, dsum_singleton]

theorem dsum_seg_full {t : drift_tree α} {p : Nat} (_hp : p ≤ t.length) :
    dsum (t.take p) + dsum ((t.drop p).take (t.length - p)) = dsum t := by
  have h1 : (t.drop p).take (t.length - p) = t.drop p := by
    apply List.take_of_length_le
    simp
  rw [h1, ← dsum_append, List.take_append_drop]

theorem subtree_run_succ (t : drift_tree α) (f : Nat) (s : subtree_iterator) (last : Nat) :
    subtree_run t (f + 1) s last =
      if s.level_m = 0 then some (s.it_m, last)
      else
        match subtree_step t s with
        | none => none
        | some s2 => subtree_run t f s2 s.level_m := rfl

theorem subtree_run_term (t : drift_tree α) (f c last : Nat) :
    subtree_run t (f + 1) ⟨c, 0⟩ last = some (c, last) := rfl

theorem subtree_run_spec {t : drift_tree α} (hv : valid t) (p : Nat) :
    ∀ (fuel c l last : Nat),
      l ≠ 0 → p < c → c ≤ t.length →
      l + dsum ((t.drop p).take (c - p)) = c - p →
      t.length + 1 ≤ fuel + c →
      ∃ e lv nd,
        subtree_run t fuel ⟨c, l⟩ last = some (e, lv) ∧
        c ≤ e - 1 ∧ e ≤ t.length ∧ p < e ∧
        t[e - 1]? = some nd ∧ lv < nd.drift ∧
        lv + dsum ((t.drop p).take (e - 1 - p)) = e - 1 - p := by
  intro fuel
  induction fuel with
  | zero =>
    intro c l last h1 h2 h3 h4 h5
    omega
  | succ f ih =>
    intro c l last h1 h2 h3 h4 h5
    have hc : c < t.length := by
      rcases Nat.lt_or_ge c t.length with h | h
      · exact h
      · exfalso
        have hceq : c = t.length := by omega
        subst hceq
        have hfull := dsum_seg_full (by omega : p ≤ t.length)
        have hpre := dsum_take_le hv p
        have htot := hv.2
        omega
    have hcnode : t[c]? = some (t[c]) := List.getElem?_eq_getElem hc
    obtain ⟨f2, rfl⟩ : ∃ f2, f = f2 + 1 := ⟨f - 1, by omega⟩
    by_cases hcase : l + 1 < (t[c]).drift
    · have hstep : subtree_step t ⟨c, l⟩ = some ⟨c + 1, 0⟩ := by
        unfold subtree_step
        rw [hcnode]
        show (if l + 1 < (t[c]).drift then some (⟨c + 1, 0⟩ : subtree_iterator)
              else some ⟨c + 1, l + 1 - (t[c]).drift⟩) = some ⟨c + 1, 0⟩
        rw [if_pos hcase]
      have hrun : subtree_run t (f2 + 1 + 1) ⟨c, l⟩ last = some (c + 1, l) := by
        rw [subtree_run_succ, hstep]
        show (if l = 0 then some (c, last)
              else subtree_run t (f2 + 1) ⟨c + 1, 0⟩ l) = some (c + 1, l)
        rw [if_neg h1, subtree_run_term]
      refine ⟨c + 1, l, t[c], hrun, by omega, by omega, by omega, ?_, by omega, ?_⟩
      · rw [show c + 1 - 1 = c from by omega]
        exact hcnode
      · rw [show c + 1 - 1 = c from by omega]
        exact h4
    · have hstep : subtree_step t ⟨c, l⟩ = some ⟨c + 1, l + 1 - (t[c]).drift⟩ := by
        unfold subtree_step
        rw [hcnode]
        show (if l + 1 < (t[c]).drift then some (⟨c + 1, 0⟩ : subtree_iterator)
              else some ⟨c + 1, l + 1 - (t[c]).drift⟩) =
            some ⟨c + 1, l + 1 - (t[c]).drift⟩
        rw [if_neg hcase]
      by_cases hzero : l + 1 - (t[c]).drift = 0
      · rw [hzero] at hstep
        have hrun : subtree_run t (f2 + 1 + 1) ⟨c, l⟩ last = some (c + 1, l) := by
          rw [subtree_run_succ, hstep]
          show (if l = 0 then some (c, last)
                else subtree_run t (f2 + 1) ⟨c + 1, 0⟩ l) = some (c + 1, l)
          rw [if_neg h1, subtree_run_term]
        refine ⟨c + 1, l, t[c], hrun, by omega, by omega, by omega, ?_, by omega, ?_⟩
        · rw [show c + 1 - 1 = c from by omega]
          exact hcnode
        · rw [show c + 1 - 1 = c from by omega]
          exact h4
      · have hseg := dsum_seg_succ (by omega : p ≤ c) hcnode
        obtain ⟨e, lv, nd, hrun2, he1, he2, he3, he4, he5, he6⟩ :=
          ih (c + 1) (l + 1 - (t[c]).drift) l hzero (by omega) (by omega)
            (by omega) (by omega)
        have hrun : subtree_run t (f2 + 1 + 1) ⟨c, l⟩ last = some (e, lv) := by
          rw [subtree_run_succ, hstep]
          show (if l = 0 then some (c, last)
                else subtree_run t (f2 + 1) ⟨c + 1, l + 1 - (t[c]).drift⟩ l) =
              some (e, lv)
          rw [if_neg h1]
          exact hrun2
        exact ⟨e, lv, nd, hrun, by omega, he2, he3, he4, he5, he6⟩

theorem subtree_run_full {t : drift_tree α} (hv : valid t) {p : Nat} {node : drift_node α}
    (hnode : t[p]? = some node) :
    ∃ e lv nd,
      subtree_run t (t.length + 1) ⟨p + 1, if node.drift = 0 then 1 else 0⟩
        (if node.drift = 0 then 1 else 0) = some (e, lv) ∧
      p < e ∧ e ≤ t.length ∧ t[e - 1]? = some nd ∧ lv < nd.drift ∧
      lv + dsum ((t.drop p).take (e - 1 - p)) = e - 1 - p := by
  have hp := getElem_some_lt hnode
  by_cases hd : node.drift = 0
  · rw [if_pos hd]
    have hs := dsum_seg_succ (le_refl p) hnode
    rw [Nat.sub_self, List.take_zero, dsum_nil, hd] at hs
    obtain ⟨e, lv, nd, hrun, h1, h2, h3, h4, h5, h6⟩ :=
      subtree_run_spec hv p (t.length + 1) (p + 1) 1 1 (by omega) (by omega) (by omega)
        (by rw [hs]; omega) (by omega)
    exact ⟨e, lv, nd, hrun, h3, h2, h4, h5, h6⟩
  · rw [if_neg hd]
    refine ⟨p + 1, 0, node, ?_, by omega, by omega, ?_, by omega, ?_⟩
    · exact subtree_run_term t t.length (p + 1) 0
    · rw [show p + 1 - 1 = p from by omega]
      exact hnode
    · rw [show p + 1 - 1 = p from by omega, Nat.sub_self, List.take_zero, dsum_nil]

theorem erase_subtree_valid {t t2 : drift_tree α} {p : Nat}
    (hv : valid t) (h : erase_subtree t p = some t2) : valid t2 := by
  unfold erase_subtree at h
  split at h
  · exact absurd h (by simp)
  · rename_i node hnode
    obtain ⟨e, lv, nd, hrun, hpe, hen, hnd, hlt, heq⟩ := subtree_run_full hv hnode
    rw [hrun] at h
    simp only [] at h
    rw [hnd] at h
    simp only [] at h
    have ht2 : t2 = t.take p ++ [⟨nd.drift - lv, node.data⟩] ++ t.drop e :=
      (Option.some.inj h).symm
    rw [ht2]
    have hp := getElem_some_lt hnode
    have hse : dsum (t.take e) = dsum (t.take p) + dsum ((t.drop p).take (e - p)) := by
      have h1 := List.take_add t p (e - p)
      rw [show p + (e - p) = e from by omega] at h1
      rw [h1, dsum_append]
    have hstep2 : dsum ((t.drop p).take (e - p)) =
        dsum ((t.drop p).take (e - 1 - p)) + nd.drift := by
      have h2 := dsum_seg_succ (show p ≤ e - 1 from by omega) hnd
      rw [show e - 1 + 1 = e from by omega] at h2
      exact h2
    have hbd : (⟨nd.drift - lv, node.data⟩ : drift_node α).drift = nd.drift - lv := rfl
    have hpre := dsum_take_le hv p
    have hpree := dsum_take_le hv e
    apply splice_valid _ _ _ hv (by omega) (by omega)
    · intro q hq
      simp only [List.length_cons, List.length_nil] at hq
      interval_cases q
      · simp only [List.take_zero, dsum_nil]
        omega
      · have he1 : ([(⟨nd.drift - lv, node.data⟩ : drift_node α)].take 1) =
            [⟨nd.drift - lv, node.data⟩] := rfl
        rw [he1, dsum_singleton, hbd]
        omega
    · rw [dsum_singleton, hbd]
      simp only [List.length_cons, List.length_nil]
      omega

theorem reachable_valid {t : drift_tree α} (h : Reachable t) : valid t := by
  induction h with
  | empty => exact valid_nil
  | proot t v ht ih => exact push_root_valid ih v
  | pbd t x bd t2 ht heq ih => exact push_back_drifted_valid ih heq
  | pbc t x t2 ht heq ih => exact push_back_drifted_valid ih heq
  | pbs t x t2 ht heq ih => exact push_back_drifted_valid ih heq
  | pbl t x lv t2 ht heq ih => exact push_back_level_valid ih heq
  | popb t t2 ht heq ih => exact pop_back_valid ih heq
  | ifc t p x t2 ht heq ih => exact insert_first_child_valid ih heq
  | ict t p ins t2 k ht hins heq ih => exact insert_child_tree_valid ih hins heq
  | isib t p x t2 ht heq ih => exact insert_sibling_valid ih heq
  | eleaf t p t2 ht heq ih => exact erase_leaf_valid ih heq
  | esub t p t2 ht heq ih => exact erase_subtree_valid ih heq

theorem subtree_list_succ (t : drift_tree α) (f : Nat) (s : subtree_iterator) :
    subtree_list t (f + 1) s =
      if s.level_m = 0 then some []
      else
        match t[s.it_m]? with
        | none => none
        | some node =>
          match subtree_step t s with
          | none => none
          | some s2 => (subtree_list t f s2).map (node :: ·) := rfl

theorem subtree_step_some {t : drift_tree α} {s s2 : subtree_iterator}
    (h : subtree_step t s = some s2) :
    ∃ node, t[s.it_m]? = some node ∧ s2.it_m = s.it_m + 1 := by
  unfold subtree_step at h
  split at h
  · exact absurd h (by simp)
  · rename_i node hnode
    refine ⟨node, hnode, ?_⟩
    split at h
    · have h2 := Option.some.inj h
      rw [← h2]
    · have h2 := Option.some.inj h
      rw [← h2]

theorem subtree_run_list {t : drift_tree α} :
    ∀ (fuel : Nat) (s : subtree_iterator) (last e lv : Nat),
      subtree_run t fuel s last = some (e, lv) →
      ∃ L, subtree_list t fuel s = some L ∧ e = s.it_m + L.length ∧
        L = (t.drop s.it_m).take L.length := by
  intro fuel
  induction fuel with
  | zero =>
    intro s last e lv h
    exact absurd h (by simp [subtree_run])
  | succ f ih =>
    intro s last e lv h
    rw [subtree_run_succ] at h
    by_cases hl : s.level_m = 0
    · rw [if_pos hl] at h
      have hp := Option.some.inj h
      have he : e = s.it_m := (congrArg Prod.fst hp).symm
      refine ⟨[], ?_, by simp [he], by simp⟩
      rw [subtree_list_succ, if_pos hl]
    · rw [if_neg hl] at h
      cases hstep : subtree_step t s with
      | none =>
        rw [hstep] at h
        exact absurd h (by simp)
      | some s2 =>
        rw [hstep] at h
        simp only [] at h
        obtain ⟨L2, hL2, heL, hLtake⟩ := ih s2 s.level_m e lv h
        obtain ⟨node, hnode, hit⟩ := subtree_step_some hstep
        obtain ⟨hlt2, hget⟩ := List.getElem?_eq_some.mp hnode
        refine ⟨node :: L2, ?_, ?_, ?_⟩
        · rw [subtree_list_succ, if_neg hl, hnode, hstep]
          show (subtree_list t f s2).map (node :: ·) = some (node :: L2)
          rw [hL2]
          rfl
        · simp only [List.length_cons]
          omega
        · simp only [List.length_cons]
          have hdrop : t.drop s.it_m = node :: t.drop (s.it_m + 1) := by
            rw [List.drop_eq_getElem_cons hlt2, hget]
          rw [hdrop, List.take_succ_cons]
          rw [hit] at hLtake
          rw [← hLtake]

/-- Claim C5: the build sequence push_root(1); push_back_child(2);
push_back_child(3); push_back_sibling(4); push_back_level(5,1);
push_back_child(6) produces a 6-node tree in which the nodes carrying 1, 2
and 5 have children, 3, 4 and 6 are leaves, and the data sum is 21; the
subtree view anchored at the node carrying 2 enumerates exactly the two
descendants 3 and 4, the view anchored at the root enumerates 5
descendants, and the view anchored at a leaf enumerates none. -/
theorem c5_scenario1_build :
    scenario_build = some scenario1 ∧
    scenario1.length = 6 ∧
    scenario1.map drift_node.data = [1, 2, 3, 4, 5, 6] ∧
    scenario1.map drift_node.has_children = [true, true, false, false, true, false] ∧
    scenario1.map drift_node.is_leaf = [false, false, true, true, false, true] ∧
    (scenario1.map drift_node.data).sum = 21 ∧
    (descendants scenario1 1).map (List.map drift_node.data) = some [3, 4] ∧
    (descendants scenario1 1).map List.length = some 2 ∧
    (descendants scenario1 0).map List.length = some 5 ∧
    descendants scenario1 2 = some [] := by
  decide

/-- Claim C8: two terminal subtree iterators compare equal whatever their
cursors; a terminal iterator never equals a non-terminal one; two
non-terminal iterators compare equal exactly when their cursors coincide. -/
theorem c8_iter_eq_spec (a b : subtree_iterator) :
    (a.is_end = true → b.is_end = true → iter_eq a b = true) ∧
    (a.is_end ≠ b.is_end → iter_eq a b = false) ∧
    (a.is_end = false → b.is_end = false → (iter_eq a b = true ↔ a.it_m = b.it_m)) := by
  refine ⟨?_, ?_, ?_⟩
  · intro ha hb
    simp only [subtree_iterator.is_end, beq_iff_eq] at ha hb
    simp [iter_eq, subtree_iterator.is_end, ha, hb]
  · intro hne
    cases hav : a.is_end <;> cases hbv : b.is_end
    · exact absurd (hav.trans hbv.symm) hne
    · simp only [subtree_iterator.is_end, beq_iff_eq] at hbv
      simp only [subtree_iterator.is_end, beq_eq_false_iff_ne] at hav
      simp [iter_eq, subtree_iterator.is_end, hbv, hav]
    · simp only [subtree_iterator.is_end, beq_iff_eq] at hav
      simp only [subtree_iterator.is_end, beq_eq_false_iff_ne] at hbv
      simp [iter_eq, subtree_iterator.is_end, hav, hbv]
      omega
    · exact absurd (hav.trans hbv.symm) hne
  · intro ha hb
    simp only [subtree_iterator.is_end, beq_eq_false_iff_ne] at ha hb
    simp [iter_eq, subtree_iterator.is_end, ha, hb]

/-- Claim C9: insert_child_tree with an empty input range leaves the tree
unchanged and returns the position immediately following the target. -/
theorem c9_insert_child_tree_empty {t : drift_tree α} {p : Nat}
    (hp : p < t.length) : insert_child_tree t p [] = some (t, p + 1) := by
  unfold insert_child_tree
  rw [List.getElem?_eq_getElem hp]
  rfl

theorem pop_back_concat (X : drift_tree α) (n1 n2 : drift_node α) :
    pop_back (X ++ [n1] ++ [n2]) = some (X ++ [⟨n1.drift + (n2.drift - 1), n1.data⟩]) := by
  have h3 : 1 < (X ++ [n1] ++ [n2]).length := by simp
  unfold pop_back
  rw [if_pos h3, List.getLast?_concat, List.dropLast_concat, List.getLast?_concat,
    List.dropLast_concat]

/-- Claim C10: on a non-empty tree, any precondition-respecting
push_back_drifted followed by pop_back restores the original tree. -/
theorem c10_push_pop_roundtrip {t : drift_tree α} {last : drift_node α}
    (hl : t.getLast? = some last) (x : α) {bd : Nat} (hbd : bd < 1 + last.drift) :
    (push_back_drifted t x bd).bind pop_back = some t := by
  have hpbd : push_back_drifted t x bd =
      some (t.dropLast ++ [⟨bd, last.data⟩, ⟨1 + last.drift - bd, x⟩]) := by
    unfold push_back_drifted
    rw [hl]
    show (if bd < 1 + last.drift then _ else _) = _
    rw [if_pos hbd]
  rw [hpbd, Option.some_bind]
  have hassoc : t.dropLast ++ [(⟨bd, last.data⟩ : drift_node α), ⟨1 + last.drift - bd, x⟩] =
      t.dropLast ++ [⟨bd, last.data⟩] ++ [⟨1 + last.drift - bd, x⟩] := by
    simp only [List.append_assoc, List.cons_append, List.nil_append]
  rw [hassoc, pop_back_concat]
  show some (t.dropLast ++ [⟨bd + (1 + last.drift - bd - 1), last.data⟩]) = some t
  rw [show bd + (1 + last.drift - bd - 1) = last.drift from by omega]
  have heta : (⟨last.drift, last.data⟩ : drift_node α) = last := rfl
  rw [heta, ← eq_dropLast_concat hl]

/-- Claim C2: on a non-empty tree whose last node has drift d and for
back_drift < 1 + d, push_back_drifted appends exactly one node, the old
last node's drift becomes back_drift and the new last node's drift becomes
1 + d - back_drift; it fails on the empty tree or when back_drift is at
least 1 + d; push_back_child and push_back_sibling are the back_drift 0
and back_drift 1 instances. -/
theorem c2_push_back_drifted_spec (x : α) (bd : Nat) :
    (∀ t : drift_tree α, ∀ last, t.getLast? = some last →
      (bd < 1 + last.drift →
        ∃ u, push_back_drifted t x bd = some u ∧
          u.length = t.length + 1 ∧
          u.getLast? = some ⟨1 + last.drift - bd, x⟩ ∧
          u.dropLast.getLast? = some ⟨bd, last.data⟩ ∧
          u.dropLast.dropLast = t.dropLast ∧
          u.dropLast.map drift_node.data = t.map drift_node.data) ∧
      (¬ bd < 1 + last.drift → push_back_drifted t x bd = none)) ∧
    push_back_drifted ([] : drift_tree α) x bd = none ∧
    (∀ t : drift_tree α, push_back_child t x = push_back_drifted t x 0 ∧
      push_back_sibling t x = push_back_drifted t x 1) := by
  refine ⟨?_, rfl, fun t => ⟨rfl, rfl⟩⟩
  intro t last hl
  constructor
  · intro hbd
    have hpbd : push_back_drifted t x bd =
        some (t.dropLast ++ [⟨bd, last.data⟩, ⟨1 + last.drift - bd, x⟩]) := by
      unfold push_back_drifted
      rw [hl]
      show (if bd < 1 + last.drift then _ else _) = _
      rw [if_pos hbd]
    have hassoc : t.dropLast ++ [(⟨bd, last.data⟩ : drift_node α), ⟨1 + last.drift - bd, x⟩] =
        t.dropLast ++ [⟨bd, last.data⟩] ++ [⟨1 + last.drift - bd, x⟩] := by
      simp only [List.append_assoc, List.cons_append, List.nil_append]
    rw [hassoc] at hpbd
    refine ⟨_, hpbd, ?_, ?_, ?_, ?_, ?_⟩
    · have := length_of_getLast_some hl
      simp only [List.length_append, List.length_cons, List.length_nil]
      omega
    · exact List.getLast?_concat _
    · rw [List.dropLast_concat]
      exact List.getLast?_concat _
    · rw [List.dropLast_concat, List.dropLast_concat]
    · rw [List.dropLast_concat]
      conv_rhs => rw [eq_dropLast_concat hl]
      simp only [List.map_append, List.map_cons, List.map_nil]
  · intro hbd
    unfold push_back_drifted
    rw [hl]
    show (if bd < 1 + last.drift then _ else _) = _
    rw [if_neg hbd]

/-- Claim C3: the subtree iterator starts at cursor p + 1 with one open
level when the anchor has children (drift 0) and zero otherwise; an
advance step bumps the open-level count, closes the view if the count is
still below the cursor node's drift, and otherwise subtracts that drift;
the cursor always moves forward by one node. -/
theorem c3_iterator_semantics (t : drift_tree α) :
    (∀ p node, t[p]? = some node →
      subtree_begin t p = some ⟨p + 1, if node.drift = 0 then 1 else 0⟩) ∧
    (∀ s : subtree_iterator, ∀ node, t[s.it_m]? = some node →
      ∃ s2, subtree_step t s = some s2 ∧ s2.it_m = s.it_m + 1 ∧
        (s.level_m + 1 < node.drift → s2.is_end = true) ∧
        (¬ s.level_m + 1 < node.drift → s2.level_m = s.level_m + 1 - node.drift)) := by
  constructor
  · intro p node hnode
    unfold subtree_begin
    rw [hnode]
  · intro s node hnode
    have hstep : subtree_step t s =
        if s.level_m + 1 < node.drift then some ⟨s.it_m + 1, 0⟩
        else some ⟨s.it_m + 1, s.level_m + 1 - node.drift⟩ := by
      unfold subtree_step
      rw [hnode]
    by_cases hc : s.level_m + 1 < node.drift
    · rw [if_pos hc] at hstep
      exact ⟨_, hstep, rfl, fun _ => rfl, fun h => absurd hc h⟩
    · rw [if_neg hc] at hstep
      exact ⟨_, hstep, rfl, fun h => absurd h hc, fun _ => rfl⟩

/-- Claim C7 counterexample: on the single-leaf tree with drift 1,
insert_first_child at the root gives the new child drift 2 (one more than
the target's prior drift), not the prior drift 1 itself as the claim's
"transferred" wording states. -/
theorem c7_counterexample :
    insert_first_child ([⟨1, 0⟩] : drift_tree Nat) 0 5 = some [⟨0, 0⟩, ⟨2, 5⟩] ∧
    insert_first_child ([⟨1, 0⟩] : drift_tree Nat) 0 5 ≠ some [⟨0, 0⟩, ⟨1, 5⟩] := by
  decide

/-- Claim C7 (amended): insert_first_child inserts the new node directly
after the target, which becomes drift 0, and the new child's drift is one
more than the target's prior drift; everything else is unchanged. -/
theorem c7_insert_first_child_spec {t : drift_tree α} {p : Nat}
    {node : drift_node α} (hnode : t[p]? = some node) (x : α) :
    ∃ u, insert_first_child t p x = some u ∧
      u.length = t.length + 1 ∧
      u.take p = t.take p ∧
      u[p]? = some ⟨0, node.data⟩ ∧
      u[p + 1]? = some ⟨1 + node.drift, x⟩ ∧
      u.drop (p + 2) = t.drop (p + 1) := by
  have hins : insert_first_child t p x =
      some (t.take p ++ [⟨0, node.data⟩, ⟨1 + node.drift, x⟩] ++ t.drop (p + 1)) := by
    unfold insert_first_child
    rw [hnode]
  have hp := getElem_some_lt hnode
  have hlenA : (t.take p).length = p := by
    simp [List.length_take]
    omega
  refine ⟨_, hins, ?_, ?_, ?_, ?_, ?_⟩
  · simp only [List.length_append, List.length_cons, List.length_nil, hlenA,
      List.length_drop, List.length_take]
    omega
  · rw [List.append_assoc, List.take_append_eq_append_take, hlenA, Nat.sub_self,
      List.take_zero, List.append_nil, List.take_take]
    congr 1
    omega
  · rw [List.append_assoc, List.getElem?_append, hlenA, if_neg (by omega), Nat.sub_self]
    rfl
  · rw [List.append_assoc, List.getElem?_append, hlenA, if_neg (by omega),
      show p + 1 - p = 1 from by omega]
    simp
  · rw [List.append_assoc, List.drop_append_eq_append_drop, hlenA,
      show p + 2 - p = 2 from by omega]
    have hA : (t.take p).drop (p + 2) = [] := List.drop_eq_nil_of_le (by rw [hlenA]; omega)
    rw [hA, List.nil_append]
    rfl

/-- Claim C1: every tree reachable from the empty tree through the public
mutating operations, applied only when their preconditions hold, has drift
sum equal to its node count, and when non-empty its last node is a leaf
(positive drift). -/
theorem c1_reachable_invariant {t : drift_tree α} (h : Reachable t) :
    dsum t = t.length ∧ ∀ x, t.getLast? = some x → 0 < x.drift ∧ x.is_leaf = true := by
  have hv := reachable_valid h
  refine ⟨hv.2, fun x hx => ⟨valid_last_drift hv hx, ?_⟩⟩
  have h1 := valid_last_drift hv hx
  simp only [drift_node.is_leaf, bne_iff_ne, ne_eq]
  omega

theorem scenario1_reachable : Reachable scenario1 := by
  have r0 : Reachable ([] : drift_tree Nat) := Reachable.empty
  have r1 : Reachable ([⟨1, 1⟩] : drift_tree Nat) := by
    have h := Reachable.proot ([] : drift_tree Nat) 1 r0
    rwa [show push_root ([] : drift_tree Nat) 1 = [⟨1, 1⟩] from by decide] at h
  have r2 : Reachable ([⟨0, 1⟩, ⟨2, 2⟩] : drift_tree Nat) :=
    Reachable.pbc [⟨1, 1⟩] 2 _ r1 (by decide)
  have r3 : Reachable ([⟨0, 1⟩, ⟨0, 2⟩, ⟨3, 3⟩] : drift_tree Nat) :=
    Reachable.pbc [⟨0, 1⟩, ⟨2, 2⟩] 3 _ r2 (by decide)
  have r4 : Reachable ([⟨0, 1⟩, ⟨0, 2⟩, ⟨1, 3⟩, ⟨3, 4⟩] : drift_tree Nat) :=
    Reachable.pbs [⟨0, 1⟩, ⟨0, 2⟩, ⟨3, 3⟩] 4 _ r3 (by decide)
  have r5 : Reachable ([⟨0, 1⟩, ⟨0, 2⟩, ⟨1, 3⟩, ⟨2, 4⟩, ⟨2, 5⟩] : drift_tree Nat) :=
    Reachable.pbl [⟨0, 1⟩, ⟨0, 2⟩, ⟨1, 3⟩, ⟨3, 4⟩] 5 1 _ r4 (by decide)
  exact Reachable.pbc [⟨0, 1⟩, ⟨0, 2⟩, ⟨1, 3⟩, ⟨2, 4⟩, ⟨2, 5⟩] 6 _ r5 (by decide)

/-- Witness for claim C1 at the concrete scenario tree. -/
theorem c1_reachable_invariant_witness :
    dsum scenario1 = scenario1.length ∧
      ∀ x, scenario1.getLast? = some x → 0 < x.drift ∧ x.is_leaf = true :=
  c1_reachable_invariant scenario1_reachable

/-- Claim C4 counterexample: erase_subtree on scenario 1's tree anchored at
the node holding 5 (position 4) removes only node 6 and therefore leaves
node count 5, not 4 as the claim states. -/
theorem c4_counterexample :
    erase_subtree scenario1 4 = some [⟨0, 1⟩, ⟨0, 2⟩, ⟨1, 3⟩, ⟨2, 4⟩, ⟨2, 5⟩] ∧
    (erase_subtree scenario1 4).map List.length = some 5 ∧
    (erase_subtree scenario1 4).map List.length ≠ some 4 := by
  decide

theorem erase_subtree_eq {t : drift_tree α} {p : Nat} {node : drift_node α}
    {e lv : Nat} {nd : drift_node α} (hnode : t[p]? = some node)
    (hrun : subtree_run t (t.length + 1) ⟨p + 1, if node.drift = 0 then 1 else 0⟩
      (if node.drift = 0 then 1 else 0) = some (e, lv))
    (hnd : t[e - 1]? = some nd) :
    erase_subtree t p = some (t.take p ++ [⟨nd.drift - lv, node.data⟩] ++ t.drop e) := by
  unfold erase_subtree
  simp only [hnode, hrun, hnd]

/-- Claim C4 (amended): for a valid tree and a valid anchor position p,
erase_subtree removes exactly the descendant nodes enumerated by the
subtree view (never the anchor itself, whose data survives at position p)
and sets the anchor's drift to the last removed node's drift minus that
node's depth within the removed range; on scenario 1's tree anchored at
the node holding 5 it removes only node 6, leaving node 5 a leaf and node
count 5 (not 4). -/
theorem c4_erase_subtree_spec {t : drift_tree α} {p : Nat} {node : drift_node α}
    (hv : valid t) (hnode : t[p]? = some node) :
    (∃ k lv nd,
      descendants t p = some ((t.drop (p + 1)).take k) ∧
      p + k < t.length ∧
      t[p + k]? = some nd ∧
      lv + dsum ((t.drop p).take k) = k ∧
      erase_subtree t p =
        some (t.take p ++ [⟨nd.drift - lv, node.data⟩] ++ t.drop (p + 1 + k))) ∧
    (erase_subtree scenario1 4 = some [⟨0, 1⟩, ⟨0, 2⟩, ⟨1, 3⟩, ⟨2, 4⟩, ⟨2, 5⟩] ∧
      (erase_subtree scenario1 4).map List.length = some 5) := by
  refine ⟨?_, by decide, by decide⟩
  obtain ⟨e, lv, nd, hrun, hpe, hen, hnd, hlt, heq⟩ := subtree_run_full hv hnode
  obtain ⟨L, hL, heL0, hLtake0⟩ := subtree_run_list _ _ _ _ _ hrun
  have heL : e = p + 1 + L.length := heL0
  have hLtake : L = (t.drop (p + 1)).take L.length := hLtake0
  have hp := getElem_some_lt hnode
  refine ⟨L.length, lv, nd, ?_, by omega, ?_, ?_, ?_⟩
  · have hbegin : subtree_begin t p = some ⟨p + 1, if node.drift = 0 then 1 else 0⟩ := by
      unfold subtree_begin
      rw [hnode]
    unfold descendants
    rw [hbegin]
    show subtree_list t (t.length + 1) ⟨p + 1, if node.drift = 0 then 1 else 0⟩ =
      some ((t.drop (p + 1)).take L.length)
    rw [hL]
    exact congrArg some hLtake
  · rw [show p + L.length = e - 1 from by omega]
    exact hnd
  · rw [show L.length = e - 1 - p from by omega]
    exact heq
  · rw [erase_subtree_eq hnode hrun hnd, show p + 1 + L.length = e from by omega]

/-- Claim C6 counterexample: push_root on the empty tree establishes the
single node with drift 1 (the emplace writes drift 0 and the subsequent
`back().drift += 1` bumps it), not with drift 0 as the claim states. -/
theorem c6_counterexample :
    push_root ([] : drift_tree Nat) 7 = [⟨1, 7⟩] ∧
    (push_root ([] : drift_tree Nat) 7).map drift_node.drift ≠ [0] := by
  decide

theorem push_root_strict {t : drift_tree α} {last : drift_node α} (hv : valid t)
    (hl : t.getLast? = some last) (v : α) :
    ∀ q, 1 ≤ q → q ≤ t.length → dsum ((push_root t v).take q) + 1 ≤ q := by
  intro q h1q hqn
  obtain ⟨q2, rfl⟩ : ∃ q2, q = q2 + 1 := ⟨q - 1, by omega⟩
  rw [push_root_eq hl v, List.cons_append, List.take_succ_cons, dsum_cons,
    dsum_take_concat]
  rw [if_neg (by rw [List.length_dropLast]; omega),
    take_dropLast_eq t q2 (by omega)]
  have := dsum_take_le hv q2
  have hz : (⟨0, v⟩ : drift_node α).drift = 0 := rfl
  omega

/-- Claim C6 (amended): push_root makes the value the new first node and
every previously existing node a descendant of it (the subtree view at the
new root enumerates exactly the old node count, with the old data in
order); invoked on an empty tree it establishes the single first node with
drift 1 (an immediate leaf), not drift 0. -/
theorem c6_push_root_spec {t : drift_tree α} (hv : valid t) (v : α) :
    (push_root t v).length = t.length + 1 ∧
    (push_root t v).map drift_node.data = v :: t.map drift_node.data ∧
    (t = [] → push_root t v = [⟨1, v⟩]) ∧
    (t ≠ [] →
      (push_root t v)[0]? = some ⟨0, v⟩ ∧
      ∃ L, descendants (push_root t v) 0 = some L ∧ L.length = t.length ∧
        L.map drift_node.data = t.map drift_node.data) := by
  cases hl : t.getLast? with
  | none =>
    have hnil : t = [] := by
      cases t with
      | nil => rfl
      | cons hd tl =>
        rw [List.getLast?_eq_getLast (hd :: tl) (by simp)] at hl
        exact Option.noConfusion hl
    subst hnil
    exact ⟨rfl, rfl, fun _ => rfl, fun h => absurd rfl h⟩
  | some last =>
    have hne : t ≠ [] := by
      intro he
      rw [he] at hl
      exact Option.noConfusion hl
    have hpos : 0 < t.length := List.length_pos.mpr hne
    have hlen5 := length_of_getLast_some hl
    have heq := push_root_eq hl v
    have hv2 := push_root_valid hv v
    have hlen : (push_root t v).length = t.length + 1 := by
      rw [heq]
      simp only [List.cons_append, List.length_cons, List.length_append,
        List.length_dropLast, List.length_cons, List.length_nil]
      omega
    have hdata : (push_root t v).map drift_node.data = v :: t.map drift_node.data := by
      rw [heq, List.cons_append, List.map_cons, List.map_append, List.map_cons,
        List.map_nil]
      conv_rhs => rw [eq_dropLast_concat hl, List.map_append, List.map_cons, List.map_nil]
    refine ⟨hlen, hdata, fun h => absurd h hne, fun _ => ?_⟩
    have hnode0 : (push_root t v)[0]? = some ⟨0, v⟩ := by
      rw [heq, List.cons_append]
      simp
    refine ⟨hnode0, ?_⟩
    have htake1 : (push_root t v).take 1 = [⟨0, v⟩] := by
      rw [heq, List.cons_append]
      rfl
    obtain ⟨e, lv, nd, hrun, h1, h2, h3, h4, h5, h6⟩ :=
      subtree_run_spec hv2 0 ((push_root t v).length + 1) 1 1 1 (by omega) (by omega)
        (by omega)
        (by
          simp only [List.drop_zero, Nat.sub_zero]
          rw [htake1, dsum_singleton]
          rfl) (by omega)
    rw [List.drop_zero, Nat.sub_zero] at h6
    have hbig : e ≤ dsum ((push_root t v).take e) := by
      have hss := dsum_seg_succ (Nat.zero_le (e - 1)) h4
      rw [List.drop_zero, Nat.sub_zero, Nat.sub_zero,
        show e - 1 + 1 = e from by omega] at hss
      omega
    have hefull : e = (push_root t v).length := by
      rcases Nat.lt_or_ge e ((push_root t v).length) with hcase | hcase
      · exfalso
        have := push_root_strict hv hl v e (by omega) (by omega)
        omega
      · omega
    obtain ⟨L, hL, heL0, hLtake0⟩ := subtree_run_list _ _ _ _ _ hrun
    have heL : e = 1 + L.length := heL0
    have hLtake : L = ((push_root t v).drop 1).take L.length := hLtake0
    have hdrop1 : (push_root t v).drop 1 = t.dropLast ++ [⟨last.drift + 1, last.data⟩] := by
      rw [heq, List.cons_append]
      rfl
    have hLlen : L.length = t.length := by omega
    have hLval : L = t.dropLast ++ [⟨last.drift + 1, last.data⟩] := by
      rw [hLtake, hdrop1]
      apply List.take_of_length_le
      simp only [List.length_append, List.length_dropLast, List.length_cons,
        List.length_nil]
      omega
    have hbegin : subtree_begin (push_root t v) 0 = some ⟨1, 1⟩ := by
      unfold subtree_begin
      rw [hnode0]
      rfl
    refine ⟨L, ?_, hLlen, ?_⟩
    · unfold descendants
      rw [hbegin]
      show subtree_list (push_root t v) ((push_root t v).length + 1) ⟨1, 1⟩ = some L
      exact hL
    · rw [hLval, List.map_append, List.map_cons, List.map_nil]
      conv_rhs => rw [eq_dropLast_concat hl, List.map_append, List.map_cons, List.map_nil]

/-- Witness for claim C2 on the scenario tree with back_drift 1. -/
theorem c2_push_back_drifted_spec_witness :
    ∃ u, push_back_drifted scenario1 9 1 = some u ∧
      u.length = scenario1.length + 1 ∧
      u.getLast? = some ⟨3, 9⟩ ∧
      u.dropLast.getLast? = some ⟨1, 6⟩ ∧
      u.dropLast.dropLast = scenario1.dropLast ∧
      u.dropLast.map drift_node.data = scenario1.map drift_node.data :=
  ((c2_push_back_drifted_spec 9 1).1 scenario1 ⟨3, 6⟩ (by decide)).1 (by decide)

/-- Witness for claim C3 on the scenario tree. -/
theorem c3_iterator_semantics_witness :
    subtree_begin scenario1 1 = some ⟨2, 1⟩ ∧
    ∃ s2, subtree_step scenario1 ⟨2, 1⟩ = some s2 ∧ s2.it_m = 3 ∧
      (1 + 1 < 1 → s2.is_end = true) ∧
      (¬ 1 + 1 < 1 → s2.level_m = 1 + 1 - 1) :=
  ⟨(c3_iterator_semantics scenario1).1 1 ⟨0, 2⟩ (by decide),
   (c3_iterator_semantics scenario1).2 ⟨2, 1⟩ ⟨1, 3⟩ (by decide)⟩

/-- Witness for claim C4 on the scenario tree anchored at the node holding 5. -/
theorem c4_erase_subtree_spec_witness :
    (∃ k lv nd,
      descendants scenario1 4 = some ((scenario1.drop (4 + 1)).take k) ∧
      4 + k < scenario1.length ∧
      scenario1[4 + k]? = some nd ∧
      lv + dsum ((scenario1.drop 4).take k) = k ∧
      erase_subtree scenario1 4 =
        some (scenario1.take 4 ++ [⟨nd.drift - lv, 5⟩] ++ scenario1.drop (4 + 1 + k))) ∧
    (erase_subtree scenario1 4 = some [⟨0, 1⟩, ⟨0, 2⟩, ⟨1, 3⟩, ⟨2, 4⟩, ⟨2, 5⟩] ∧
      (erase_subtree scenario1 4).map List.length = some 5) :=
  @c4_erase_subtree_spec Nat scenario1 4 ⟨0, 5⟩ (by decide) (by decide)

/-- Witness for claim C6 on the scenario tree. -/
theorem c6_push_root_spec_witness :
    (push_root scenario1 0).length = scenario1.length + 1 ∧
    (push_root scenario1 0).map drift_node.data = 0 :: scenario1.map drift_node.data ∧
    (scenario1 = [] → push_root scenario1 0 = [⟨1, 0⟩]) ∧
    (scenario1 ≠ [] →
      (push_root scenario1 0)[0]? = some ⟨0, 0⟩ ∧
      ∃ L, descendants (push_root scenario1 0) 0 = some L ∧ L.length = scenario1.length ∧
        L.map drift_node.data = scenario1.map drift_node.data) :=
  c6_push_root_spec (by decide) 0

/-- Witness for claim C7 on the scenario tree at position 1. -/
theorem c7_insert_first_child_spec_witness :
    ∃ u, insert_first_child scenario1 1 42 = some u ∧
      u.length = scenario1.length + 1 ∧
      u.take 1 = scenario1.take 1 ∧
      u[1]? = some ⟨0, 2⟩ ∧
      u[1 + 1]? = some ⟨1, 42⟩ ∧
      u.drop (1 + 2) = scenario1.drop (1 + 1) :=
  @c7_insert_first_child_spec Nat scenario1 1 ⟨0, 2⟩ (by decide) 42

/-- Witness for claim C8 at concrete iterator states. -/
theorem c8_iter_eq_spec_witness :
    iter_eq ⟨5, 0⟩ ⟨9, 0⟩ = true ∧
    iter_eq ⟨5, 0⟩ ⟨5, 2⟩ = false ∧
    (iter_eq ⟨5, 2⟩ ⟨5, 3⟩ = true ↔ (5 : Nat) = 5) :=
  ⟨(c8_iter_eq_spec ⟨5, 0⟩ ⟨9, 0⟩).1 (by decide) (by decide),
   (c8_iter_eq_spec ⟨5, 0⟩ ⟨5, 2⟩).2.1 (by decide),
   (c8_iter_eq_spec ⟨5, 2⟩ ⟨5, 3⟩).2.2 (by decide) (by decide)⟩

/-- Witness for claim C9 on the scenario tree at position 2. -/
theorem c9_insert_child_tree_empty_witness :
    insert_child_tree scenario1 2 [] = some (scenario1, 2 + 1) :=
  c9_insert_child_tree_empty (by decide)

/-- Witness for claim C10 on the scenario tree with back_drift 2. -/
theorem c10_push_pop_roundtrip_witness :
    (push_back_drifted scenario1 7 2).bind pop_back = some scenario1 :=
  @c10_push_pop_roundtrip Nat scenario1 ⟨3, 6⟩ (by decide) 7 2 (by decide)

end vt
